import Mathlib

/-!
Verification of the field-element and elliptic-curve-point arithmetic of
`ecc.py` (modular arithmetic over a prime field and the chord-tangent group
law on `y^2 = x^3 + a*x + b`). The Python classes `FieldElement`, `Point` and
`S256Field` are embedded shallowly: fallible methods (those that can raise)
become functions into `Except Err _`, Python's `%` on integers becomes
`Int.fmod` (both are floored modulus, taking the sign of the divisor), and
`Point.__add__`, which can fall off the end of the function and return
Python's `None`, returns an `Option Point` inside `Except`.
-/

namespace ProgBitcoin

/-- The exception kinds raised by `ecc.py`: `ValueError`, `TypeError` and
`ZeroDivisionError`. -/
inductive Err
  | valueError
  | typeError
  | zeroDivisionError
deriving DecidableEq, Repr

/-- Python's `%` on integers: floored modulus, result carries the sign of the
divisor. Only ever applied with a nonzero divisor (a zero divisor raises and
is guarded at each use site). -/
def pymod (a b : Int) : Int := Int.fmod a b

/-- `FieldElement` from `ecc.py`: an integer `num` and a modulus `prime`. -/
structure FieldElement where
  num : Int
  prime : Int
deriving DecidableEq, Repr

namespace FieldElement

/-- `FieldElement.__init__`: raises `ValueError` iff `num >= prime` or
`num < 0`. -/
def construct (num prime : Int) : Except Err FieldElement :=
  if num ≥ prime ∨ num < 0 then .error .valueError
  else .ok ⟨num, prime⟩

/-- `FieldElement.__eq__`. The source reads
`self.num == other.num and self.prime == self.prime`: the second conjunct
compares `self.prime` with itself. The embedding reproduces that literally. -/
def eq (a b : FieldElement) : Bool :=
  a.num == b.num && a.prime == a.prime

/-- `FieldElement.__add__`: `TypeError` on differing primes, then
`(self.num + other.num) % self.prime` rebuilt through `__init__`. -/
def add (a b : FieldElement) : Except Err FieldElement :=
  if a.prime ≠ b.prime then .error .typeError
  else if a.prime = 0 then .error .zeroDivisionError
  else construct (pymod (a.num + b.num) a.prime) a.prime

/-- `FieldElement.__sub__`. -/
def sub (a b : FieldElement) : Except Err FieldElement :=
  if a.prime ≠ b.prime then .error .typeError
  else if a.prime = 0 then .error .zeroDivisionError
  else construct (pymod (a.num - b.num) a.prime) a.prime

/-- `FieldElement.__mul__`. -/
def mul (a b : FieldElement) : Except Err FieldElement :=
  if a.prime ≠ b.prime then .error .typeError
  else if a.prime = 0 then .error .zeroDivisionError
  else construct (pymod (a.num * b.num) a.prime) a.prime

/-- `FieldElement.__pow__`: `n = exponent % (self.prime - 1)` (raising
`ZeroDivisionError` when `prime = 1`), then `pow(self.num, n, self.prime)`
rebuilt through `__init__`. For a constructible element `prime ≥ 1`, so the
reduced exponent `n` is nonnegative; the branches for `prime ≤ 0` (where
Python's three-argument `pow` would raise) are modelled as `ValueError`. -/
def pow (a : FieldElement) (exponent : Int) : Except Err FieldElement :=
  if a.prime - 1 = 0 then .error .zeroDivisionError
  else if a.prime = 0 then .error .valueError
  else if pymod exponent (a.prime - 1) < 0 then .error .valueError
  else construct (pymod (a.num ^ (pymod exponent (a.prime - 1)).toNat) a.prime) a.prime

/-- `FieldElement.__truediv__`: `TypeError` on differing primes, `ValueError`
on a zero divisor, otherwise Fermat inversion
`self.num * pow(other.num, self.prime - 2, self.prime) % self.prime`. The
branches for `prime ≤ 1` (negative exponent in Python's three-argument `pow`)
are modelled as `ValueError`; they are unreachable from constructible
elements because the zero-divisor guard fires first when `prime = 1`. -/
def div (a b : FieldElement) : Except Err FieldElement :=
  if a.prime ≠ b.prime then .error .typeError
  else if b.num = 0 then .error .valueError
  else if a.prime = 0 then .error .valueError
  else if a.prime - 2 < 0 then .error .valueError
  else construct (pymod (a.num * pymod (b.num ^ (a.prime - 2).toNat) a.prime) a.prime) a.prime

/-- `FieldElement.__rmul__` (integer scaling):
`(self.num * coefficient) % self.prime` rebuilt through `__init__`. -/
def rmul (coefficient : Int) (a : FieldElement) : Except Err FieldElement :=
  if a.prime = 0 then .error .zeroDivisionError
  else construct (pymod (a.num * coefficient) a.prime) a.prime

end FieldElement

/-- `Point` from `ecc.py`: affine coordinates that may each be Python's
`None` (the infinity marker), plus the curve parameters `a`, `b`. -/
structure Point where
  x : Option FieldElement
  y : Option FieldElement
  a : FieldElement
  b : FieldElement
deriving DecidableEq, Repr

/-- Python `==` on two values that are each either `None` or a
`FieldElement`: `None == None` is `True`, a mixed comparison is `False`
(`FieldElement.__eq__` returns `False` on `None`), and two field elements
compare via `FieldElement.__eq__`. -/
def optEq : Option FieldElement → Option FieldElement → Bool
  | none, none => true
  | some a, some b => FieldElement.eq a b
  | _, _ => false

/-- `Point._on_curve`: evaluates
`self.y ** 2 == self.x ** 3 + self.a * self.x + self.b` with `FieldElement`
operations (each of which can raise), comparing via `FieldElement.__eq__`. -/
def onCurve (x y a b : FieldElement) : Except Err Bool := do
  let lhs ← FieldElement.pow y 2
  let xcube ← FieldElement.pow x 3
  let ax ← FieldElement.mul a x
  let s1 ← FieldElement.add xcube ax
  let rhs ← FieldElement.add s1 b
  pure (FieldElement.eq lhs rhs)

namespace Point

/-- `Point.__init__`: if both coordinates are `None` the point is returned
with no curve check; if both are present the curve equation is evaluated and
`ValueError` raised when it fails; a mixed `None`/value pair sends `None`
into field arithmetic inside `_on_curve`, raising `TypeError`. -/
def construct (x y : Option FieldElement) (a b : FieldElement) : Except Err Point :=
  match x, y with
  | none, none => .ok ⟨none, none, a, b⟩
  | some xv, some yv => do
    let oc ← onCurve xv yv a b
    if oc then .ok ⟨some xv, some yv, a, b⟩ else .error .valueError
  | _, _ => .error .typeError

/-- `Point.__eq__`: coordinates (including infinity-ness) and both curve
parameters, all via the `FieldElement` equality above. -/
def eq (p q : Point) : Bool :=
  optEq p.x q.x && optEq p.y q.y && FieldElement.eq p.a q.a && FieldElement.eq p.b q.b

/-- `Point.__add__`. The result is `Option Point` inside `Except` because the
Python function can fall off the end of its case analysis and return `None`;
that outcome is `.ok none`. Case order is exactly the source's: curve guard,
left identity, right identity, vertical line (`x` equal, `y` different),
chord (`x` different), vertical tangent (`p == q` and `y == 0 * x`), general
doubling (`p == q`). Chord and doubling results are rebuilt through
`Point.__init__`, which re-evaluates the curve equation. -/
def add (p q : Point) : Except Err (Option Point) :=
  if !(FieldElement.eq p.a q.a) || !(FieldElement.eq p.b q.b) then .error .typeError
  else match p.x, q.x with
  | none, _ => .ok (some q)
  | _, none => .ok (some p)
  | some x1, some x2 =>
    if optEq p.x q.x && !(optEq p.y q.y) then .ok (some ⟨none, none, p.a, p.b⟩)
    else if !(FieldElement.eq x1 x2) then
      match p.y, q.y with
      | some y1, some y2 => do
          let dy ← FieldElement.sub y2 y1
          let dx ← FieldElement.sub x2 x1
          let s ← FieldElement.div dy dx
          let ssq ← FieldElement.pow s 2
          let t ← FieldElement.sub ssq x1
          let x3 ← FieldElement.sub t x2
          let u ← FieldElement.sub x1 x3
          let v ← FieldElement.mul s u
          let y3 ← FieldElement.sub v y1
          let r ← construct (some x3) (some y3) p.a p.b
          pure (some r)
      | _, _ => .error .typeError
    else if eq p q then do
      let z ← FieldElement.rmul 0 x1
      if optEq p.y (some z) then
        pure (some ⟨none, none, p.a, p.b⟩)
      else
        match p.y with
        | some y1 => do
            let xsq ← FieldElement.pow x1 2
            let t3 ← FieldElement.rmul 3 xsq
            let sn ← FieldElement.add t3 p.a
            let sd ← FieldElement.rmul 2 y1
            let s ← FieldElement.div sn sd
            let ssq ← FieldElement.pow s 2
            let tx ← FieldElement.rmul 2 x1
            let x3 ← FieldElement.sub ssq tx
            let u ← FieldElement.sub x1 x3
            let v ← FieldElement.mul s u
            let y3 ← FieldElement.sub v y1
            let r ← construct (some x3) (some y3) p.a p.b
            pure (some r)
        | none => .error .typeError
    else .ok none

/-- One iteration step of the `while coef:` loop in `Point.__rmul__`, acting
on Python values that are either a `Point` or `None` (the latter only if
`__add__` ever fell through; adding to `None` raises `TypeError`). -/
def addOpt : Option Point → Option Point → Except Err (Option Point)
  | some p, some q => add p q
  | _, _ => .error .typeError

/-- The `while coef:` loop of `Point.__rmul__`: if the low bit of `coef` is
set, `result += current`; then `current += current`; then shift `coef` right.
The loop runs until `coef = 0`; each iteration halves `coef`, so running it
with `fuel` initially equal to `coef` (see `Point.rmul`) always terminates
through the `coef = 0` case — the fuel parameter exists only to make the
recursion structural, and its exhaustion case is unreachable from
`Point.rmul`. -/
def rmulAux : Nat → Nat → Option Point → Option Point → Except Err (Option Point)
  | _, 0, _, result => .ok result
  | 0, _ + 1, _, result => .ok result
  | fuel + 1, coef + 1, current, result => do
      let result ← if (coef + 1) % 2 = 1 then addOpt result current else pure result
      let current ← addOpt current current
      rmulAux fuel ((coef + 1) / 2) current result

/-- `Point.__rmul__` (double-and-add scalar multiplication). The coefficient
is a nonnegative integer (§4.2 of the spec; a negative Python int would make
`coef >>= 1` loop forever). `result` starts as the identity point and
`current` as `self`. -/
def rmul (coefficient : Nat) (p : Point) : Except Err (Option Point) :=
  rmulAux coefficient coefficient (some p) (some ⟨none, none, p.a, p.b⟩)

/-- Naive scalar multiplication, the reference the spec compares `__rmul__`
against (and the source's commented-out "inefficient way"): add `p` to the
identity `n` times with `Point.__add__`. -/
def naiveScalarMul (n : Nat) (p : Point) : Except Err (Option Point) :=
  match n with
  | 0 => .ok (some ⟨none, none, p.a, p.b⟩)
  | n + 1 => do
      let r ← naiveScalarMul n p
      addOpt r (some p)

end Point

/-- The constant `P` of `ecc.py`, line 281: `(2 ** 255) + (2 ** 32) - 977`. -/
def P : Int := 2 ^ 255 + 2 ^ 32 - 977

/-- `S256Field.__init__`: delegates to `FieldElement.__init__` with the fixed
modulus `P`, ignoring the caller-supplied `prime` argument (which defaults to
Python `None`, hence the `Option`). -/
def S256Field.construct (num : Int) (primeArg : Option Int) : Except Err FieldElement :=
  FieldElement.construct num P

deriving instance DecidableEq for Except

/-- The `FieldElement` invariant of §3 of the spec: `0 <= num < prime`. -/
def FieldElement.valid (a : FieldElement) : Prop :=
  0 ≤ a.num ∧ a.num < a.prime

/-- A `FieldElement` is an element of the field of `p` elements: its modulus
is `p` and its number is a reduced residue. -/
def FieldElement.inField (p : ℕ) (a : FieldElement) : Prop :=
  a.prime = (p : Int) ∧ 0 ≤ a.num ∧ a.num < (p : Int)

/-- A `FieldElement` represents the residue class `z : ZMod p`. -/
def feRep (p : ℕ) (a : FieldElement) (z : ZMod p) : Prop :=
  a.inField p ∧ (a.num : ZMod p) = z

/-- A valid point of the claims: its curve parameters and coordinates live in
the field of `p` elements and, unless it is the point at infinity, it passes
the `_on_curve` check that `Point.__init__` performs. -/
def Point.validFor (p : ℕ) (pt : Point) : Prop :=
  pt.a.inField p ∧ pt.b.inField p ∧
    ((pt.x = none ∧ pt.y = none) ∨
      ∃ xv yv, pt.x = some xv ∧ pt.y = some yv ∧ xv.inField p ∧ yv.inField p ∧
        onCurve xv yv pt.a pt.b = .ok true)

/-- The short Weierstrass curve `y^2 = x^3 + a*x + b` over `ZMod p`, as a
Mathlib `WeierstrassCurve.Affine`. -/
def Wc (p : ℕ) (za zb : ZMod p) : WeierstrassCurve.Affine (ZMod p) :=
  { a₁ := 0, a₂ := 0, a₃ := 0, a₄ := za, a₆ := zb }

/-- A `Point` of the embedding represents a Mathlib nonsingular point of the
curve `y^2 = x^3 + za*x + zb` over `ZMod p`: its stored curve parameters
represent `za` and `zb`, and it is either the infinity marker representing
`0` or an affine pair representing the coordinates of the Mathlib point. -/
def pointRep (p : ℕ) (za zb : ZMod p) (pt : Point) (Q : (Wc p za zb).Point) : Prop :=
  feRep p pt.a za ∧ feRep p pt.b zb ∧
    ((pt.x = none ∧ pt.y = none ∧ Q = 0) ∨
      ∃ xv yv zx zy, ∃ h : (Wc p za zb).Nonsingular zx zy,
        pt.x = some xv ∧ pt.y = some yv ∧ feRep p xv zx ∧ feRep p yv zy ∧
        Q = .some h)

/-! ### Basic lemmas about the embedded field operations -/

lemma pymod_nonneg (a : Int) {b : Int} (hb : 0 < b) : 0 ≤ pymod a b :=
  Int.fmod_nonneg' a hb

lemma pymod_lt (a : Int) {b : Int} (hb : 0 < b) : pymod a b < b :=
  Int.fmod_lt_of_pos a hb

lemma bind_ok {α β : Type} (a : α) (f : α → Except Err β) :
    (Except.ok a : Except Err α) >>= f = f a := rfl

lemma bind_error {α β : Type} (e : Err) (f : α → Except Err β) :
    (Except.error e : Except Err α) >>= f = .error e := rfl

lemma pure_eq_ok {α : Type} (a : α) : (pure a : Except Err α) = .ok a := rfl

lemma construct_ok {n p : Int} (h0 : 0 ≤ n) (h1 : n < p) :
    FieldElement.construct n p = .ok ⟨n, p⟩ := by
  rw [FieldElement.construct, if_neg (by omega)]

lemma construct_pymod (a : Int) {p : Int} (hp : 0 < p) :
    FieldElement.construct (pymod a p) p = .ok ⟨pymod a p, p⟩ :=
  construct_ok (pymod_nonneg a hp) (pymod_lt a hp)

lemma construct_valid {n p : Int} {r : FieldElement}
    (h : FieldElement.construct n p = .ok r) :
    r.valid ∧ r.num = n ∧ r.prime = p := by
  rw [FieldElement.construct] at h
  by_cases hc : n ≥ p ∨ n < 0
  · rw [if_pos hc] at h
    exact absurd h (by simp)
  · rw [if_neg hc] at h
    obtain rfl : FieldElement.mk n p = r := Except.ok.inj h
    exact ⟨⟨by simp; omega, by simp; omega⟩, rfl, rfl⟩

lemma construct_iff {n p : Int} :
    (∃ r, FieldElement.construct n p = .ok r) ↔ (0 ≤ n ∧ n < p) := by
  constructor
  · rintro ⟨r, hr⟩
    rcases construct_valid hr with ⟨hv, rfl, rfl⟩
    exact ⟨hv.1, hv.2⟩
  · rintro ⟨h0, h1⟩
    exact ⟨_, construct_ok h0 h1⟩

lemma add_ok {a b : FieldElement} (hpr : a.prime = b.prime) (hp : 0 < a.prime) :
    FieldElement.add a b = .ok ⟨pymod (a.num + b.num) a.prime, a.prime⟩ := by
  rw [FieldElement.add, if_neg (by omega), if_neg (by omega)]
  exact construct_pymod _ hp

lemma sub_ok {a b : FieldElement} (hpr : a.prime = b.prime) (hp : 0 < a.prime) :
    FieldElement.sub a b = .ok ⟨pymod (a.num - b.num) a.prime, a.prime⟩ := by
  rw [FieldElement.sub, if_neg (by omega), if_neg (by omega)]
  exact construct_pymod _ hp

lemma mul_ok {a b : FieldElement} (hpr : a.prime = b.prime) (hp : 0 < a.prime) :
    FieldElement.mul a b = .ok ⟨pymod (a.num * b.num) a.prime, a.prime⟩ := by
  rw [FieldElement.mul, if_neg (by omega), if_neg (by omega)]
  exact construct_pymod _ hp

lemma rmul_ok {a : FieldElement} (c : Int) (hp : 0 < a.prime) :
    FieldElement.rmul c a = .ok ⟨pymod (a.num * c) a.prime, a.prime⟩ := by
  rw [FieldElement.rmul, if_neg (by omega)]
  exact construct_pymod _ hp

lemma pow_ok {a : FieldElement} (e : Int) (hp : 2 ≤ a.prime) :
    FieldElement.pow a e =
      .ok ⟨pymod (a.num ^ (pymod e (a.prime - 1)).toNat) a.prime, a.prime⟩ := by
  rw [FieldElement.pow, if_neg (by omega), if_neg (by omega),
    if_neg (by have := pymod_nonneg e (b := a.prime - 1) (by omega); omega)]
  exact construct_pymod _ (by omega)

lemma div_ok {a b : FieldElement} (hpr : a.prime = b.prime) (hp : 2 ≤ a.prime)
    (hb : b.num ≠ 0) :
    FieldElement.div a b =
      .ok ⟨pymod (a.num * pymod (b.num ^ (a.prime - 2).toNat) a.prime) a.prime,
        a.prime⟩ := by
  rw [FieldElement.div, if_neg (by omega), if_neg hb, if_neg (by omega), if_neg (by omega)]
  exact construct_pymod _ (by omega)

lemma eq_iff_num (a b : FieldElement) : FieldElement.eq a b = (a.num == b.num) := by
  simp [FieldElement.eq]

lemma eq_self (a : FieldElement) : FieldElement.eq a a = true := by
  simp [FieldElement.eq]

lemma optEq_self (o : Option FieldElement) : optEq o o = true := by
  cases o <;> simp [optEq, eq_self]

lemma point_eq_self (p : Point) : Point.eq p p = true := by
  simp [Point.eq, optEq_self, eq_self]

lemma rmul_zero {a : FieldElement} (hp : 0 < a.prime) :
    FieldElement.rmul 0 a = .ok ⟨0, a.prime⟩ := by
  have h := rmul_ok (a := a) 0 hp
  rwa [mul_zero, show pymod 0 a.prime = 0 from Int.zero_fmod _] at h

lemma add_order_two (xv yv a b : FieldElement) (hy : yv.num = 0)
    (hp : 0 < xv.prime) :
    Point.add ⟨some xv, some yv, a, b⟩ ⟨some xv, some yv, a, b⟩ =
      .ok (some ⟨none, none, a, b⟩) := by
  simp only [Point.add, eq_self, optEq_self, point_eq_self, Bool.not_true,
    Bool.or_self, Bool.and_false, Bool.false_and, if_false, Bool.false_or]
  rw [rmul_zero hp]
  simp only [bind_ok]
  simp [optEq, FieldElement.eq, hy, pure_eq_ok]

lemma bind_ne_ok_none {α : Type} (m : Except Err α) (f : α → Except Err (Option Point))
    (h : ∀ a, f a ≠ .ok none) : (m >>= f) ≠ .ok none := by
  cases m with
  | error e => rw [bind_error]; simp
  | ok a => rw [bind_ok]; exact h a

lemma add_result_valid {x y : FieldElement} {r : FieldElement}
    (h : FieldElement.add x y = .ok r) : r.valid := by
  rw [FieldElement.add] at h
  split at h
  · exact absurd h (by simp)
  split at h
  · exact absurd h (by simp)
  exact (construct_valid h).1

lemma sub_result_valid {x y : FieldElement} {r : FieldElement}
    (h : FieldElement.sub x y = .ok r) : r.valid := by
  rw [FieldElement.sub] at h
  split at h
  · exact absurd h (by simp)
  split at h
  · exact absurd h (by simp)
  exact (construct_valid h).1

lemma mul_result_valid {x y : FieldElement} {r : FieldElement}
    (h : FieldElement.mul x y = .ok r) : r.valid := by
  rw [FieldElement.mul] at h
  split at h
  · exact absurd h (by simp)
  split at h
  · exact absurd h (by simp)
  exact (construct_valid h).1

lemma pow_result_valid {x : FieldElement} {d : Int} {r : FieldElement}
    (h : FieldElement.pow x d = .ok r) : r.valid := by
  rw [FieldElement.pow] at h
  split at h
  · exact absurd h (by simp)
  split at h
  · exact absurd h (by simp)
  split at h
  · exact absurd h (by simp)
  exact (construct_valid h).1

lemma div_result_valid {x y : FieldElement} {r : FieldElement}
    (h : FieldElement.div x y = .ok r) : r.valid := by
  rw [FieldElement.div] at h
  split at h
  · exact absurd h (by simp)
  split at h
  · exact absurd h (by simp)
  split at h
  · exact absurd h (by simp)
  split at h
  · exact absurd h (by simp)
  exact (construct_valid h).1

lemma rmul_result_valid {d : Int} {x : FieldElement} {r : FieldElement}
    (h : FieldElement.rmul d x = .ok r) : r.valid := by
  rw [FieldElement.rmul] at h
  split at h
  · exact absurd h (by simp)
  exact (construct_valid h).1

/-! ### The claims -/

/-- C1: the spec requires `equals(a, b)` to be true iff `a.num == b.num` and
`a.prime == b.prime`. The source's `__eq__` reads
`self.num == other.num and self.prime == self.prime`, comparing `self.prime`
with itself, so equality depends only on the numbers: the elements `1 mod 3`
and `1 mod 5` compare equal even though their primes differ. This is the
exact pitfall §9 of the spec warns about, so the code, not the claim, is
wrong. -/
theorem c1_eq_ignores_modulus :
    FieldElement.eq ⟨1, 3⟩ ⟨1, 5⟩ = true ∧
      ∀ a b : FieldElement, FieldElement.eq a b = (a.num == b.num) :=
  ⟨rfl, eq_iff_num⟩

set_option maxRecDepth 100000 in
/-- C3: on `y^2 = x^3 + 7` over the field of 223 elements, the six operand
coordinate pairs all pass `Point.__init__`, and the three point additions of
the spec's test vectors produce exactly the stated results. -/
theorem c3_concrete_additions :
    (Point.construct (some ⟨192, 223⟩) (some ⟨105, 223⟩) ⟨0, 223⟩ ⟨7, 223⟩ =
      .ok ⟨some ⟨192, 223⟩, some ⟨105, 223⟩, ⟨0, 223⟩, ⟨7, 223⟩⟩) ∧
    (Point.construct (some ⟨17, 223⟩) (some ⟨56, 223⟩) ⟨0, 223⟩ ⟨7, 223⟩ =
      .ok ⟨some ⟨17, 223⟩, some ⟨56, 223⟩, ⟨0, 223⟩, ⟨7, 223⟩⟩) ∧
    (Point.construct (some ⟨47, 223⟩) (some ⟨71, 223⟩) ⟨0, 223⟩ ⟨7, 223⟩ =
      .ok ⟨some ⟨47, 223⟩, some ⟨71, 223⟩, ⟨0, 223⟩, ⟨7, 223⟩⟩) ∧
    (Point.construct (some ⟨117, 223⟩) (some ⟨141, 223⟩) ⟨0, 223⟩ ⟨7, 223⟩ =
      .ok ⟨some ⟨117, 223⟩, some ⟨141, 223⟩, ⟨0, 223⟩, ⟨7, 223⟩⟩) ∧
    (Point.construct (some ⟨143, 223⟩) (some ⟨98, 223⟩) ⟨0, 223⟩ ⟨7, 223⟩ =
      .ok ⟨some ⟨143, 223⟩, some ⟨98, 223⟩, ⟨0, 223⟩, ⟨7, 223⟩⟩) ∧
    (Point.construct (some ⟨76, 223⟩) (some ⟨66, 223⟩) ⟨0, 223⟩ ⟨7, 223⟩ =
      .ok ⟨some ⟨76, 223⟩, some ⟨66, 223⟩, ⟨0, 223⟩, ⟨7, 223⟩⟩) ∧
    (Point.add ⟨some ⟨192, 223⟩, some ⟨105, 223⟩, ⟨0, 223⟩, ⟨7, 223⟩⟩
        ⟨some ⟨17, 223⟩, some ⟨56, 223⟩, ⟨0, 223⟩, ⟨7, 223⟩⟩ =
      .ok (some ⟨some ⟨170, 223⟩, some ⟨142, 223⟩, ⟨0, 223⟩, ⟨7, 223⟩⟩)) ∧
    (Point.add ⟨some ⟨47, 223⟩, some ⟨71, 223⟩, ⟨0, 223⟩, ⟨7, 223⟩⟩
        ⟨some ⟨117, 223⟩, some ⟨141, 223⟩, ⟨0, 223⟩, ⟨7, 223⟩⟩ =
      .ok (some ⟨some ⟨60, 223⟩, some ⟨139, 223⟩, ⟨0, 223⟩, ⟨7, 223⟩⟩)) ∧
    (Point.add ⟨some ⟨143, 223⟩, some ⟨98, 223⟩, ⟨0, 223⟩, ⟨7, 223⟩⟩
        ⟨some ⟨76, 223⟩, some ⟨66, 223⟩, ⟨0, 223⟩, ⟨7, 223⟩⟩ =
      .ok (some ⟨some ⟨47, 223⟩, some ⟨71, 223⟩, ⟨0, 223⟩, ⟨7, 223⟩⟩)) := by
  decide

/-- C5: `FieldElement.__init__` succeeds exactly when `0 <= num < prime`
(raising `ValueError` otherwise); on valid operands of a field with
modulus at least 2 (with equal moduli for the binary operations and a
nonzero divisor for division) every operation succeeds and returns an
element of the same modulus satisfying the invariant; and unconditionally,
any element any operation ever returns satisfies `0 <= num < prime`,
because each operation rebuilds its result through `__init__`. -/
theorem c5_construct_range_and_invariant (num p : Int) (a b : FieldElement)
    (e c : Int) (ha : a.valid) (hb : b.valid) (hpr : a.prime = b.prime)
    (h2 : 2 ≤ a.prime) (hbz : b.num ≠ 0) :
    ((∃ r, FieldElement.construct num p = .ok r) ↔ (0 ≤ num ∧ num < p)) ∧
    (∃ r, FieldElement.add a b = .ok r ∧ r.valid ∧ r.prime = a.prime) ∧
    (∃ r, FieldElement.sub a b = .ok r ∧ r.valid ∧ r.prime = a.prime) ∧
    (∃ r, FieldElement.mul a b = .ok r ∧ r.valid ∧ r.prime = a.prime) ∧
    (∃ r, FieldElement.pow a e = .ok r ∧ r.valid ∧ r.prime = a.prime) ∧
    (∃ r, FieldElement.div a b = .ok r ∧ r.valid ∧ r.prime = a.prime) ∧
    (∃ r, FieldElement.rmul c a = .ok r ∧ r.valid ∧ r.prime = a.prime) ∧
    (∀ x y : FieldElement, ∀ r, FieldElement.add x y = .ok r → r.valid) ∧
    (∀ x y : FieldElement, ∀ r, FieldElement.sub x y = .ok r → r.valid) ∧
    (∀ x y : FieldElement, ∀ r, FieldElement.mul x y = .ok r → r.valid) ∧
    (∀ x : FieldElement, ∀ d : Int, ∀ r, FieldElement.pow x d = .ok r → r.valid) ∧
    (∀ x y : FieldElement, ∀ r, FieldElement.div x y = .ok r → r.valid) ∧
    (∀ d : Int, ∀ x : FieldElement, ∀ r, FieldElement.rmul d x = .ok r → r.valid) := by
  have hp0 : (0 : Int) < a.prime := by omega
  refine ⟨construct_iff,
    ⟨_, add_ok hpr hp0, ⟨pymod_nonneg _ hp0, pymod_lt _ hp0⟩, rfl⟩,
    ⟨_, sub_ok hpr hp0, ⟨pymod_nonneg _ hp0, pymod_lt _ hp0⟩, rfl⟩,
    ⟨_, mul_ok hpr hp0, ⟨pymod_nonneg _ hp0, pymod_lt _ hp0⟩, rfl⟩,
    ⟨_, pow_ok e h2, ⟨pymod_nonneg _ hp0, pymod_lt _ hp0⟩, rfl⟩,
    ⟨_, div_ok hpr h2 hbz, ⟨pymod_nonneg _ hp0, pymod_lt _ hp0⟩, rfl⟩,
    ⟨_, rmul_ok c hp0, ⟨pymod_nonneg _ hp0, pymod_lt _ hp0⟩, rfl⟩,
    fun _ _ _ h => add_result_valid h,
    fun _ _ _ h => sub_result_valid h,
    fun _ _ _ h => mul_result_valid h,
    fun _ _ _ h => pow_result_valid h,
    fun _ _ _ h => div_result_valid h,
    fun _ _ _ h => rmul_result_valid h⟩

/-- C5 witness: the `add` clause at `2 mod 7` and `3 mod 7`. -/
theorem c5_construct_range_and_invariant_witness :
    ∃ r, FieldElement.add ⟨2, 7⟩ ⟨3, 7⟩ = .ok r ∧ r.valid ∧
      r.prime = (⟨2, 7⟩ : FieldElement).prime :=
  (c5_construct_range_and_invariant 3 7 ⟨2, 7⟩ ⟨3, 7⟩ (-5) 11
    ⟨by norm_num, by norm_num⟩ ⟨by norm_num, by norm_num⟩ rfl
    (by norm_num) (by norm_num)).2.1

/-- C7: `Point.__init__` returns the identity with no curve check when both
coordinates are the infinity marker; for two present coordinates over a
common modulus at least 2 the `_on_curve` evaluation succeeds and
construction fails with `ValueError` exactly when the computed curve
equation is false; and the two out-of-curve candidates `(200, 119)` and
`(42, 99)` on `y^2 = x^3 + 7` over `F_223` are rejected. -/
theorem c7_construct_on_curve_check (x y a b : FieldElement)
    (hxp : x.prime = a.prime) (hyp : y.prime = a.prime) (hbp : b.prime = a.prime)
    (h2 : 2 ≤ a.prime) :
    (Point.construct none none a b = .ok ⟨none, none, a, b⟩) ∧
    (∃ oc, onCurve x y a b = .ok oc ∧
      Point.construct (some x) (some y) a b =
        (if oc then .ok ⟨some x, some y, a, b⟩ else .error .valueError)) ∧
    (Point.construct (some ⟨200, 223⟩) (some ⟨119, 223⟩) ⟨0, 223⟩ ⟨7, 223⟩ =
      .error .valueError) ∧
    (Point.construct (some ⟨42, 223⟩) (some ⟨99, 223⟩) ⟨0, 223⟩ ⟨7, 223⟩ =
      .error .valueError) := by
  refine ⟨rfl, ?_, by decide, by decide⟩
  have hy2 := pow_ok (a := y) 2 (by omega)
  have hx3 := pow_ok (a := x) 3 (by omega)
  have hax := mul_ok (a := a) (b := x) (by omega) (by omega)
  have hs1 := add_ok (a := (⟨pymod (x.num ^ (pymod 3 (x.prime - 1)).toNat) x.prime,
      x.prime⟩ : FieldElement))
    (b := (⟨pymod (a.num * x.num) a.prime, a.prime⟩ : FieldElement))
    (by simpa using hxp) (by simpa using (by omega : (0 : Int) < x.prime))
  have hrhs := add_ok
    (a := (⟨pymod ((⟨pymod (x.num ^ (pymod 3 (x.prime - 1)).toNat) x.prime,
        x.prime⟩ : FieldElement).num +
      (⟨pymod (a.num * x.num) a.prime, a.prime⟩ : FieldElement).num) x.prime,
        x.prime⟩ : FieldElement))
    (b := b) (by simpa using by omega) (by simpa using (by omega : (0 : Int) < x.prime))
  rw [onCurve, hy2, bind_ok, hx3, bind_ok, hax, bind_ok, hs1, bind_ok, hrhs, bind_ok]
  refine ⟨_, rfl, ?_⟩
  rw [Point.construct]
  rw [onCurve, hy2, bind_ok, hx3, bind_ok, hax, bind_ok, hs1, bind_ok, hrhs, bind_ok,
    pure_eq_ok, bind_ok]

/-- C7 witness: the valid point `(192, 105)` on `y^2 = x^3 + 7` over
`F_223`. -/
theorem c7_construct_on_curve_check_witness :
    (Point.construct none none (⟨0, 223⟩ : FieldElement) ⟨7, 223⟩ =
      .ok ⟨none, none, ⟨0, 223⟩, ⟨7, 223⟩⟩) ∧
    (∃ oc, onCurve ⟨192, 223⟩ ⟨105, 223⟩ ⟨0, 223⟩ ⟨7, 223⟩ = .ok oc ∧
      Point.construct (some ⟨192, 223⟩) (some ⟨105, 223⟩) ⟨0, 223⟩ ⟨7, 223⟩ =
        (if oc then .ok ⟨some ⟨192, 223⟩, some ⟨105, 223⟩, ⟨0, 223⟩, ⟨7, 223⟩⟩
          else .error .valueError)) ∧
    (Point.construct (some ⟨200, 223⟩) (some ⟨119, 223⟩) ⟨0, 223⟩ ⟨7, 223⟩ =
      .error .valueError) ∧
    (Point.construct (some ⟨42, 223⟩) (some ⟨99, 223⟩) ⟨0, 223⟩ ⟨7, 223⟩ =
      .error .valueError) :=
  c7_construct_on_curve_check ⟨192, 223⟩ ⟨105, 223⟩ ⟨0, 223⟩ ⟨7, 223⟩
    rfl rfl rfl (by norm_num)

/-- C6 counterexample: the claim says `pow(a, e)` must fail or be guarded
when `a.num == 0` and `e < 0`, but the code returns a field element: for
`a = 0 mod 7` and `e = -1` the reduced exponent is `-1 mod 6 = 5` and
`pow(0, 5, 7) = 0`, so the call returns `0 mod 7` without any error. -/
theorem c6_counterexample_pow_of_zero :
    FieldElement.pow ⟨0, 7⟩ (-1) = .ok ⟨0, 7⟩ := by decide

/-- C6 amended: for `a.num == 0`, `prime ≥ 2` and a negative exponent `e`,
`pow(a, e)` does not fail: it returns the element with `num = 1` when
`e ≡ 0 (mod prime - 1)` (the reduced exponent is `0` and `0^0 = 1`) and the
zero element otherwise. -/
theorem c6_amended_pow_of_zero (a : FieldElement) (e : Int) (h0 : a.num = 0)
    (he : e < 0) (h2 : 2 ≤ a.prime) :
    FieldElement.pow a e =
      .ok ⟨if pymod e (a.prime - 1) = 0 then 1 else 0, a.prime⟩ := by
  rw [pow_ok e h2, h0]
  by_cases hz : pymod e (a.prime - 1) = 0
  · rw [if_pos hz, hz]
    norm_num [pymod]
    exact Int.fmod_eq_of_lt (by omega) (by omega)
  · rw [if_neg hz]
    have hn : 0 ≤ pymod e (a.prime - 1) := pymod_nonneg e (by omega)
    have ht : (pymod e (a.prime - 1)).toNat ≠ 0 := by omega
    rw [zero_pow ht]
    norm_num [pymod]

/-- C6 amended, witness: the amended statement evaluated at `0 mod 7` with
exponent `-1`. -/
theorem c6_amended_pow_of_zero_witness :
    FieldElement.pow ⟨0, 7⟩ (-1) =
      .ok ⟨if pymod (-1) (7 - 1) = 0 then 1 else 0, 7⟩ :=
  c6_amended_pow_of_zero ⟨0, 7⟩ (-1) rfl (by decide) (by decide)

/-- C8: for a prime `p` and an element `a` of the field of `p` elements with
`a.num ≠ 0`, `pow(a, p - 1)` is the multiplicative identity `1 mod p`. In the
code this holds because `__pow__` first reduces the exponent modulo `p - 1`,
giving `0`, and `pow(num, 0, p) = 1` for `p ≥ 2`. -/
theorem c8_fermat_pow_card_sub_one (p : ℕ) (hp : p.Prime) (a : FieldElement)
    (hpr : a.prime = (p : Int)) (hnz : a.num ≠ 0) :
    FieldElement.pow a ((p : Int) - 1) = .ok ⟨1, (p : Int)⟩ := by
  have h2 : (2 : Int) ≤ p := by exact_mod_cast hp.two_le
  rw [pow_ok _ (by omega), hpr]
  have hself : pymod ((p : Int) - 1) ((p : Int) - 1) = 0 := Int.fmod_self
  rw [hself]
  norm_num [pymod]
  exact Int.fmod_eq_of_lt (by omega) (by omega)

/-- C8 witness: Fermat's check at `a = 2 mod 5`. -/
theorem c8_fermat_witness :
    FieldElement.pow ⟨2, 5⟩ (((5 : ℕ) : Int) - 1) = .ok ⟨1, ((5 : ℕ) : Int)⟩ :=
  c8_fermat_pow_card_sub_one 5 (by norm_num) ⟨2, 5⟩ (by norm_num) (by decide)

set_option maxRecDepth 100000 in
/-- C4 counterexample: the claim fails for valid points over fields of
characteristic 2 (and 3). The point `(1, 1)` lies on `y^2 = x^3` over `F_2`
and passes `Point.__init__`, and `1` is in `[0, 20]`, but
`scalarMultiply(1, P)` raises (its unconditional `current += current` step
divides by `2*y = 0 mod 2`) while naive repeated addition returns `P`
itself, so the two disagree. -/
theorem c4_counterexample_char_two :
    (Point.construct (some ⟨1, 2⟩) (some ⟨1, 2⟩) ⟨0, 2⟩ ⟨0, 2⟩ =
      .ok ⟨some ⟨1, 2⟩, some ⟨1, 2⟩, ⟨0, 2⟩, ⟨0, 2⟩⟩) ∧
    (Point.naiveScalarMul 1 ⟨some ⟨1, 2⟩, some ⟨1, 2⟩, ⟨0, 2⟩, ⟨0, 2⟩⟩ =
      .ok (some ⟨some ⟨1, 2⟩, some ⟨1, 2⟩, ⟨0, 2⟩, ⟨0, 2⟩⟩)) ∧
    (Point.rmul 1 ⟨some ⟨1, 2⟩, some ⟨1, 2⟩, ⟨0, 2⟩, ⟨0, 2⟩⟩ =
      .error .valueError) ∧
    Point.rmul 1 ⟨some ⟨1, 2⟩, some ⟨1, 2⟩, ⟨0, 2⟩, ⟨0, 2⟩⟩ ≠
      Point.naiveScalarMul 1 ⟨some ⟨1, 2⟩, some ⟨1, 2⟩, ⟨0, 2⟩, ⟨0, 2⟩⟩ := by
  decide

/-- C9: the case analysis of `Point.__add__` is exhaustive. The Python
function's final fallthrough (an implicit `return None`, embedded as
`.ok none`) is unreachable for every pair of inputs whatsoever, valid or not:
whenever the curve guard passes, both points are affine, the vertical-line
and chord cases do not apply, the points necessarily satisfy `p == q`, so one
of the two doubling branches fires. Hence no input combination is ever
answered by the silent default return. -/
theorem c9_add_cases_exhaustive (p q : Point) : Point.add p q ≠ .ok none := by
  obtain ⟨px, py, pa, pb⟩ := p
  obtain ⟨qx, qy, qa, qb⟩ := q
  simp only [Point.add]
  split
  · simp
  rename_i hguard
  split
  · simp
  · simp
  · rename_i x1 x2
    split
    · simp
    split
    · rename_i hchord
      split
      · apply bind_ne_ok_none; intro dy
        apply bind_ne_ok_none; intro dx
        apply bind_ne_ok_none; intro s
        apply bind_ne_ok_none; intro ssq
        apply bind_ne_ok_none; intro t
        apply bind_ne_ok_none; intro x3
        apply bind_ne_ok_none; intro u
        apply bind_ne_ok_none; intro v
        apply bind_ne_ok_none; intro y3
        apply bind_ne_ok_none; intro r
        simp [pure_eq_ok]
      · simp
    split
    · apply bind_ne_ok_none; intro z
      split
      · simp [pure_eq_ok]
      split
      · apply bind_ne_ok_none; intro xsq
        apply bind_ne_ok_none; intro t3
        apply bind_ne_ok_none; intro sn
        apply bind_ne_ok_none; intro sd
        apply bind_ne_ok_none; intro s
        apply bind_ne_ok_none; intro ssq
        apply bind_ne_ok_none; intro tx
        apply bind_ne_ok_none; intro x3
        apply bind_ne_ok_none; intro u
        apply bind_ne_ok_none; intro v
        apply bind_ne_ok_none; intro y3
        apply bind_ne_ok_none; intro r
        simp [pure_eq_ok]
      · simp
    · rename_i hvert hchord hpq
      exfalso
      simp only [Bool.or_eq_true, Bool.not_eq_true', Bool.not_eq_true,
        Bool.and_eq_true, not_or, not_and, Bool.not_eq_false] at hguard hvert hchord hpq
      have hx : optEq (some x1) (some x2) = true := by simpa [optEq] using hchord
      have ht : Point.eq { x := some x1, y := py, a := pa, b := pb }
          { x := some x2, y := qy, a := qa, b := qb } = true := by
        simp only [Point.eq, Bool.and_eq_true]
        exact ⟨⟨⟨hx, hvert hx⟩, hguard.1⟩, hguard.2⟩
      rw [ht] at hpq
      exact Bool.noConfusion hpq

/-- C10: `S256Field.__init__` delegates to `FieldElement.__init__` with the
fixed modulus `P = 2^255 + 2^32 - 977` of line 281 of the source, so any
successfully constructed element has that modulus and the original `num`,
and the caller-supplied `prime` argument has no effect on the result. -/
theorem c10_s256_fixed_modulus (num : Int) (pr1 pr2 : Option Int)
    (r : FieldElement) (h : S256Field.construct num pr1 = .ok r) :
    r.prime = 2 ^ 255 + 2 ^ 32 - 977 ∧ r.num = num ∧
      S256Field.construct num pr2 = S256Field.construct num pr1 := by
  rcases construct_valid h with ⟨-, rfl, hpr⟩
  exact ⟨hpr, rfl, rfl⟩

/-- C2: doubling an affine point whose `y`-coordinate is the zero field
element returns the identity point: the vertical-tangent branch
(`self == other and self.y == 0 * self.x`) is evaluated before the general
doubling branch, so no division by `2*y = 0` is attempted. Stated for any
affine point with `y.num = 0` over a positive modulus, which subsumes every
valid order-2 curve point. -/
theorem c2_double_order_two_point (xv yv a b : FieldElement) (hy : yv.num = 0)
    (hp : 0 < xv.prime) :
    Point.add ⟨some xv, some yv, a, b⟩ ⟨some xv, some yv, a, b⟩ =
      .ok (some ⟨none, none, a, b⟩) :=
  add_order_two xv yv a b hy hp

/-- C2 witness: the order-2 point `(0, 0)` of `y^2 = x^3` over `F_5`. -/
theorem c2_double_order_two_point_witness :
    Point.add ⟨some ⟨0, 5⟩, some ⟨0, 5⟩, ⟨0, 5⟩, ⟨0, 5⟩⟩
        ⟨some ⟨0, 5⟩, some ⟨0, 5⟩, ⟨0, 5⟩, ⟨0, 5⟩⟩ =
      .ok (some ⟨none, none, ⟨0, 5⟩, ⟨0, 5⟩⟩) :=
  c2_double_order_two_point ⟨0, 5⟩ ⟨0, 5⟩ ⟨0, 5⟩ ⟨0, 5⟩ rfl (by decide)

/-- C10 witness: constructing `1` with an arbitrary ignored `prime` argument. -/
theorem c10_s256_fixed_modulus_witness :
    (⟨1, P⟩ : FieldElement).prime = 2 ^ 255 + 2 ^ 32 - 977 ∧
      (⟨1, P⟩ : FieldElement).num = 1 ∧
      S256Field.construct 1 none = S256Field.construct 1 (some 999) :=
  c10_s256_fixed_modulus 1 (some 999) none ⟨1, P⟩
    (construct_ok (by norm_num) (by norm_num [P]))

/-! ### Representation of field elements over `ZMod p` (infrastructure for
claim C4) -/

lemma pymod_intCast (p : ℕ) (a : Int) :
    ((pymod a (p : Int) : Int) : ZMod p) = (a : ZMod p) := by
  rw [pymod, Int.fmod_eq_emod _ (by positivity)]
  rw [ZMod.intCast_eq_intCast_iff']
  simp [Int.emod_emod_of_dvd]

lemma feRep_inj {p : ℕ} {a b : FieldElement} {za zb : ZMod p}
    (ha : feRep p a za) (hb : feRep p b zb) : a.num = b.num ↔ za = zb := by
  obtain ⟨⟨hpa, ha0, ha1⟩, hca⟩ := ha
  obtain ⟨⟨hpb, hb0, hb1⟩, hcb⟩ := hb
  constructor
  · intro h
    rw [← hca, ← hcb, h]
  · intro h
    rw [← hca, ← hcb, ZMod.intCast_eq_intCast_iff'] at h
    rwa [Int.emod_eq_of_lt ha0 ha1, Int.emod_eq_of_lt hb0 hb1] at h

lemma feEq_rep {p : ℕ} {a b : FieldElement} {za zb : ZMod p}
    (ha : feRep p a za) (hb : feRep p b zb) :
    FieldElement.eq a b = true ↔ za = zb := by
  rw [eq_iff_num, beq_iff_eq]
  exact feRep_inj ha hb

lemma fe_add_rep {p : ℕ} (hp : 0 < p) {a b : FieldElement} {za zb : ZMod p}
    (ha : feRep p a za) (hb : feRep p b zb) :
    ∃ c, FieldElement.add a b = .ok c ∧ feRep p c (za + zb) := by
  obtain ⟨⟨hpa, ha0, ha1⟩, hca⟩ := ha
  obtain ⟨⟨hpb, hb0, hb1⟩, hcb⟩ := hb
  have hpz : (0 : Int) < a.prime := by omega
  refine ⟨_, add_ok (by omega) hpz, ⟨hpa, pymod_nonneg _ hpz, hpa ▸ pymod_lt _ hpz⟩, ?_⟩
  rw [hpa, pymod_intCast, Int.cast_add, hca, hcb]

lemma fe_sub_rep {p : ℕ} (hp : 0 < p) {a b : FieldElement} {za zb : ZMod p}
    (ha : feRep p a za) (hb : feRep p b zb) :
    ∃ c, FieldElement.sub a b = .ok c ∧ feRep p c (za - zb) := by
  obtain ⟨⟨hpa, ha0, ha1⟩, hca⟩ := ha
  obtain ⟨⟨hpb, hb0, hb1⟩, hcb⟩ := hb
  have hpz : (0 : Int) < a.prime := by omega
  refine ⟨_, sub_ok (by omega) hpz, ⟨hpa, pymod_nonneg _ hpz, hpa ▸ pymod_lt _ hpz⟩, ?_⟩
  rw [hpa, pymod_intCast, Int.cast_sub, hca, hcb]

lemma fe_mul_rep {p : ℕ} (hp : 0 < p) {a b : FieldElement} {za zb : ZMod p}
    (ha : feRep p a za) (hb : feRep p b zb) :
    ∃ c, FieldElement.mul a b = .ok c ∧ feRep p c (za * zb) := by
  obtain ⟨⟨hpa, ha0, ha1⟩, hca⟩ := ha
  obtain ⟨⟨hpb, hb0, hb1⟩, hcb⟩ := hb
  have hpz : (0 : Int) < a.prime := by omega
  refine ⟨_, mul_ok (by omega) hpz, ⟨hpa, pymod_nonneg _ hpz, hpa ▸ pymod_lt _ hpz⟩, ?_⟩
  rw [hpa, pymod_intCast, Int.cast_mul, hca, hcb]

lemma fe_rmul_rep {p : ℕ} (hp : 0 < p) (k : Int) {a : FieldElement} {za : ZMod p}
    (ha : feRep p a za) :
    ∃ c, FieldElement.rmul k a = .ok c ∧ feRep p c (za * (k : ZMod p)) := by
  obtain ⟨⟨hpa, ha0, ha1⟩, hca⟩ := ha
  have hpz : (0 : Int) < a.prime := by omega
  refine ⟨_, rmul_ok k hpz, ⟨hpa, pymod_nonneg _ hpz, hpa ▸ pymod_lt _ hpz⟩, ?_⟩
  rw [hpa, pymod_intCast, Int.cast_mul, hca]

lemma fe_pow_rep {p : ℕ} (hp : 2 ≤ p) (k : ℕ) (hk : (k : Int) < (p : Int) - 1)
    {a : FieldElement} {za : ZMod p} (ha : feRep p a za) :
    ∃ c, FieldElement.pow a (k : Int) = .ok c ∧ feRep p c (za ^ k) := by
  obtain ⟨⟨hpa, ha0, ha1⟩, hca⟩ := ha
  have h2 : (2 : Int) ≤ a.prime := by omega
  have hm : pymod (k : Int) (a.prime - 1) = (k : Int) := by
    rw [pymod, Int.fmod_eq_of_lt (by positivity) (by omega)]
  refine ⟨_, pow_ok _ h2, ?_⟩
  rw [hm]
  refine ⟨⟨hpa, pymod_nonneg _ (by omega), hpa ▸ pymod_lt _ (by omega)⟩, ?_⟩
  rw [hpa, pymod_intCast, Int.cast_pow, hca, Int.toNat_natCast]

lemma zmod_pow_card_sub_two {p : ℕ} [Fact p.Prime] {z : ZMod p} (hz : z ≠ 0) :
    z ^ (p - 2) = z⁻¹ := by
  have hp2 : 2 ≤ p := (Fact.out : p.Prime).two_le
  have h1 : z * z ^ (p - 2) = 1 := by
    rw [← pow_succ', show p - 2 + 1 = p - 1 from by omega]
    exact ZMod.pow_card_sub_one_eq_one hz
  exact (inv_eq_of_mul_eq_one_right h1).symm

lemma fe_div_rep {p : ℕ} [Fact p.Prime] {a b : FieldElement} {za zb : ZMod p}
    (ha : feRep p a za) (hb : feRep p b zb) (hzb : zb ≠ 0) :
    ∃ c, FieldElement.div a b = .ok c ∧ feRep p c (za / zb) := by
  have hp2 : 2 ≤ p := (Fact.out : p.Prime).two_le
  obtain ⟨⟨hpa, ha0, ha1⟩, hca⟩ := ha
  obtain ⟨⟨hpb, hb0, hb1⟩, hcb⟩ := hb
  have hbnum : b.num ≠ 0 := by
    intro h
    apply hzb
    rw [← hcb, h, Int.cast_zero]
  refine ⟨_, div_ok (by omega) (by omega) hbnum, ?_⟩
  refine ⟨⟨hpa, pymod_nonneg _ (by omega), hpa ▸ pymod_lt _ (by omega)⟩, ?_⟩
  rw [hpa, pymod_intCast, Int.cast_mul, hca, pymod_intCast, Int.cast_pow, hcb,
    show ((p : Int) - 2).toNat = p - 2 from by omega,
    zmod_pow_card_sub_two hzb, div_eq_mul_inv]

/-! ### The curve `y^2 = x^3 + a*x + b` over `ZMod p` and the representation
of points (infrastructure for claim C4) -/

lemma zmod_two_ne_zero {p : ℕ} (hp5 : 5 ≤ p) : (2 : ZMod p) ≠ 0 := by
  intro h0
  rw [show ((2 : ZMod p)) = ((2 : ℕ) : ZMod p) from by push_cast; rfl,
    ZMod.natCast_zmod_eq_zero_iff_dvd] at h0
  have := Nat.le_of_dvd (by norm_num) h0
  omega

lemma Wc_equation_iff {p : ℕ} (za zb zx zy : ZMod p) :
    (Wc p za zb).Equation zx zy ↔ zy ^ 2 = zx ^ 3 + za * zx + zb := by
  rw [WeierstrassCurve.Affine.equation_iff]
  simp [Wc]

lemma Wc_negY {p : ℕ} (za zb zx zy : ZMod p) :
    (Wc p za zb).negY zx zy = -zy := by
  simp [Wc, WeierstrassCurve.Affine.negY]

lemma Wc_nonsingular_of_y_ne {p : ℕ} [Fact p.Prime] (hp5 : 5 ≤ p) {za zb zx zy : ZMod p}
    (heq : (Wc p za zb).Equation zx zy) (hy : zy ≠ 0) :
    (Wc p za zb).Nonsingular zx zy := by
  rw [WeierstrassCurve.Affine.nonsingular_iff]
  refine ⟨heq, Or.inr ?_⟩
  simp only [Wc, zero_mul, sub_zero]
  intro hcon
  apply hy
  have h2y : (2 : ZMod p) * zy = 0 := by
    rw [two_mul]
    calc zy + zy = -zy + zy := by rw [← hcon]
    _ = 0 := by ring
  rcases mul_eq_zero.mp h2y with h | h
  · exact absurd h (zmod_two_ne_zero hp5)
  · exact h

lemma onCurve_rep {p : ℕ} [Fact p.Prime] (hp5 : 5 ≤ p) {x y a b : FieldElement}
    {zx zy za zb : ZMod p} (hx : feRep p x zx) (hy : feRep p y zy)
    (ha : feRep p a za) (hb : feRep p b zb) :
    ∃ r, onCurve x y a b = .ok r ∧
      (r = true ↔ (Wc p za zb).Equation zx zy) := by
  have hp0 : 0 < p := by omega
  have hp2 : 2 ≤ p := by omega
  obtain ⟨l, hl, hlrep⟩ := fe_pow_rep hp2 2 (by omega) hy
  obtain ⟨x3, hx3, hx3rep⟩ := fe_pow_rep hp2 3 (by omega) hx
  obtain ⟨ax, hax, haxrep⟩ := fe_mul_rep hp0 ha hx
  obtain ⟨s1, hs1, hs1rep⟩ := fe_add_rep hp0 hx3rep haxrep
  obtain ⟨rhs, hrhs, hrhsrep⟩ := fe_add_rep hp0 hs1rep hb
  norm_num at hl hx3
  refine ⟨FieldElement.eq l rhs, ?_, ?_⟩
  · rw [onCurve, hl, bind_ok, hx3, bind_ok, hax, bind_ok, hs1, bind_ok, hrhs,
      bind_ok, pure_eq_ok]
  · rw [feEq_rep hlrep hrhsrep, Wc_equation_iff]

lemma point_construct_rep {p : ℕ} [Fact p.Prime] (hp5 : 5 ≤ p)
    {x y a b : FieldElement} {zx zy za zb : ZMod p} (hx : feRep p x zx)
    (hy : feRep p y zy) (ha : feRep p a za) (hb : feRep p b zb)
    (heq : (Wc p za zb).Equation zx zy) :
    Point.construct (some x) (some y) a b = .ok ⟨some x, some y, a, b⟩ := by
  obtain ⟨r, hoc, hiff⟩ := onCurve_rep hp5 hx hy ha hb
  simp only [Point.construct]
  rw [hoc, bind_ok, if_pos (hiff.mpr heq)]

lemma feEq_rep_false {p : ℕ} {a b : FieldElement} {za zb : ZMod p}
    (ha : feRep p a za) (hb : feRep p b zb) (h : za ≠ zb) :
    FieldElement.eq a b = false := by
  cases hE : FieldElement.eq a b
  · rfl
  · exact absurd ((feEq_rep ha hb).mp hE) h

open WeierstrassCurve.Affine WeierstrassCurve.Affine.Point in
lemma point_add_rep {p : ℕ} [Fact p.Prime] (hp5 : 5 ≤ p) {za zb : ZMod p}
    {pt₁ pt₂ : Point} {Q₁ Q₂ : (Wc p za zb).Point}
    (h₁ : pointRep p za zb pt₁ Q₁) (h₂ : pointRep p za zb pt₂ Q₂) :
    ∃ pt₃, Point.add pt₁ pt₂ = .ok (some pt₃) ∧ pointRep p za zb pt₃ (Q₁ + Q₂) := by
  have hp0 : 0 < p := by omega
  have hp2 : 2 ≤ p := by omega
  have h2z : (2 : ZMod p) ≠ 0 := zmod_two_ne_zero hp5
  obtain ⟨px₁, py₁, pa₁, pb₁⟩ := pt₁
  obtain ⟨px₂, py₂, pa₂, pb₂⟩ := pt₂
  obtain ⟨ha₁, hb₁, hcase₁⟩ := h₁
  obtain ⟨ha₂, hb₂, hcase₂⟩ := h₂
  simp only at ha₁ hb₁ ha₂ hb₂ hcase₁ hcase₂
  have hga : FieldElement.eq pa₁ pa₂ = true := (feEq_rep ha₁ ha₂).mpr rfl
  have hgb : FieldElement.eq pb₁ pb₂ = true := (feEq_rep hb₁ hb₂).mpr rfl
  rcases hcase₁ with ⟨hx₁, hy₁, hQ₁⟩ | ⟨xv₁, yv₁, zx₁, zy₁, hns₁, hx₁, hy₁, hxr₁, hyr₁, hQ₁⟩
  · subst hx₁
    subst hy₁
    subst hQ₁
    rw [zero_add]
    exact ⟨⟨px₂, py₂, pa₂, pb₂⟩, by simp [Point.add, hga, hgb], ha₂, hb₂, hcase₂⟩
  rcases hcase₂ with ⟨hx₂, hy₂, hQ₂⟩ | ⟨xv₂, yv₂, zx₂, zy₂, hns₂, hx₂, hy₂, hxr₂, hyr₂, hQ₂⟩
  · subst hx₁
    subst hy₁
    subst hQ₁
    subst hx₂
    subst hy₂
    subst hQ₂
    rw [add_zero]
    refine ⟨⟨some xv₁, some yv₁, pa₁, pb₁⟩, by simp [Point.add, hga, hgb], ha₁, hb₁, ?_⟩
    exact Or.inr ⟨xv₁, yv₁, zx₁, zy₁, hns₁, rfl, rfl, hxr₁, hyr₁, rfl⟩
  subst hx₁
  subst hy₁
  subst hQ₁
  subst hx₂
  subst hy₂
  subst hQ₂
  by_cases hxx : zx₁ = zx₂
  · subst hxx
    have hex : FieldElement.eq xv₁ xv₂ = true := (feEq_rep hxr₁ hxr₂).mpr rfl
    by_cases hyy : zy₁ = zy₂
    · subst hyy
      have hey : FieldElement.eq yv₁ yv₂ = true := (feEq_rep hyr₁ hyr₂).mpr rfl
      have hpq : Point.eq ⟨some xv₁, some yv₁, pa₁, pb₁⟩
          ⟨some xv₂, some yv₂, pa₂, pb₂⟩ = true := by
        simp [Point.eq, optEq, hex, hey, hga, hgb]
      obtain ⟨z0, hz0, hz0rep⟩ := fe_rmul_rep hp0 0 hxr₁
      have hz0rep' : feRep p z0 0 := by simpa using hz0rep
      by_cases hy0 : zy₁ = 0
      · have heyz : FieldElement.eq yv₁ z0 = true := (feEq_rep hyr₁ hz0rep').mpr hy0
        refine ⟨⟨none, none, pa₁, pb₁⟩, ?_, ha₁, hb₁, Or.inl ⟨rfl, rfl, ?_⟩⟩
        · simp [Point.add, optEq, hga, hgb, hex, hey, hpq, hz0, bind_ok, heyz, pure_eq_ok]
        · exact add_of_Y_eq rfl (by rw [Wc_negY, hy0]; ring)
      · have hyneg : zy₁ ≠ (Wc p za zb).negY zx₁ zy₁ := by
          rw [Wc_negY]
          intro hcon
          apply hy0
          have h2y : (2 : ZMod p) * zy₁ = 0 := by
            rw [two_mul]
            calc zy₁ + zy₁ = -zy₁ + zy₁ := by rw [← hcon]
            _ = 0 := by ring
          rcases mul_eq_zero.mp h2y with h | h
          · exact absurd h h2z
          · exact h
        have heyz : FieldElement.eq yv₁ z0 = false := feEq_rep_false hyr₁ hz0rep' hy0
        obtain ⟨xsq, hxsq, hxsqr⟩ := fe_pow_rep hp2 2 (by omega) hxr₁
        obtain ⟨t3, ht3, ht3r⟩ := fe_rmul_rep hp0 3 hxsqr
        obtain ⟨sn, hsn, hsnr⟩ := fe_add_rep hp0 ht3r ha₁
        obtain ⟨sd, hsd, hsdr⟩ := fe_rmul_rep hp0 2 hyr₁
        have hsd0 : zy₁ * ((2 : Int) : ZMod p) ≠ 0 := by
          push_cast
          exact mul_ne_zero hy0 h2z
        obtain ⟨s, hs, hsr⟩ := fe_div_rep hsnr hsdr hsd0
        have hsL : (zx₁ ^ 2 * ((3 : Int) : ZMod p) + za) / (zy₁ * ((2 : Int) : ZMod p)) =
            (Wc p za zb).slope zx₁ zx₁ zy₁ zy₁ := by
          rw [slope_of_Y_ne rfl hyneg, Wc_negY]
          simp only [Wc]
          push_cast
          ring_nf
        rw [hsL] at hsr
        obtain ⟨ssq, hssq, hssqr⟩ := fe_pow_rep hp2 2 (by omega) hsr
        obtain ⟨tx, htx, htxr⟩ := fe_rmul_rep hp0 2 hxr₁
        obtain ⟨x3, hx3, hx3r⟩ := fe_sub_rep hp0 hssqr htxr
        have haddX : (Wc p za zb).slope zx₁ zx₁ zy₁ zy₁ ^ 2 - zx₁ * ((2 : Int) : ZMod p) =
            (Wc p za zb).addX zx₁ zx₁ ((Wc p za zb).slope zx₁ zx₁ zy₁ zy₁) := by
          simp only [WeierstrassCurve.Affine.addX, Wc]
          push_cast
          ring
        rw [haddX] at hx3r
        obtain ⟨u, hu, hur⟩ := fe_sub_rep hp0 hxr₁ hx3r
        obtain ⟨v, hv, hvr⟩ := fe_mul_rep hp0 hsr hur
        obtain ⟨y3, hy3, hy3r⟩ := fe_sub_rep hp0 hvr hyr₁
        have haddY : (Wc p za zb).slope zx₁ zx₁ zy₁ zy₁ *
              (zx₁ - (Wc p za zb).addX zx₁ zx₁ ((Wc p za zb).slope zx₁ zx₁ zy₁ zy₁)) - zy₁ =
            (Wc p za zb).addY zx₁ zx₁ zy₁ ((Wc p za zb).slope zx₁ zx₁ zy₁ zy₁) := by
          simp only [WeierstrassCurve.Affine.addY, WeierstrassCurve.Affine.negAddY,
            WeierstrassCurve.Affine.negY, WeierstrassCurve.Affine.addX, Wc]
          ring
        rw [haddY] at hy3r
        have hxy : zx₁ = zx₁ → zy₁ ≠ (Wc p za zb).negY zx₁ zy₁ := fun _ => hyneg
        have hns₃ := nonsingular_add hns₁ hns₂ hxy
        have hcon := point_construct_rep hp5 hx3r hy3r ha₁ hb₁ hns₃.1
        norm_num at hxsq hssq
        refine ⟨⟨some x3, some y3, pa₁, pb₁⟩, ?_, ha₁, hb₁,
          Or.inr ⟨x3, y3, _, _, hns₃, rfl, rfl, hx3r, hy3r, add_of_imp hxy⟩⟩
        simp [Point.add, optEq, hga, hgb, hex, hey, hpq, hz0, heyz, hxsq, ht3, hsn,
          hsd, hs, hssq, htx, hx3, hu, hv, hy3, hcon, bind_ok, pure_eq_ok]
    · have hey : FieldElement.eq yv₁ yv₂ = false := feEq_rep_false hyr₁ hyr₂ hyy
      have hyneg : zy₁ = (Wc p za zb).negY zx₁ zy₂ := by
        rcases Y_eq_of_X_eq hns₁.1 hns₂.1 rfl with h | h
        · exact absurd h hyy
        · exact h
      refine ⟨⟨none, none, pa₁, pb₁⟩, ?_, ha₁, hb₁,
        Or.inl ⟨rfl, rfl, add_of_Y_eq rfl hyneg⟩⟩
      simp [Point.add, optEq, hga, hgb, hex, hey, pure_eq_ok]
  · have hex : FieldElement.eq xv₁ xv₂ = false := feEq_rep_false hxr₁ hxr₂ hxx
    have hdx0 : zx₂ - zx₁ ≠ 0 := sub_ne_zero_of_ne (Ne.symm hxx)
    obtain ⟨dy, hdy, hdyr⟩ := fe_sub_rep hp0 hyr₂ hyr₁
    obtain ⟨dx, hdx, hdxr⟩ := fe_sub_rep hp0 hxr₂ hxr₁
    obtain ⟨s, hs, hsr⟩ := fe_div_rep hdyr hdxr hdx0
    have hsL : (zy₂ - zy₁) / (zx₂ - zx₁) = (Wc p za zb).slope zx₁ zx₂ zy₁ zy₂ := by
      rw [slope_of_X_ne hxx, div_eq_div_iff hdx0 (sub_ne_zero_of_ne hxx)]
      ring
    rw [hsL] at hsr
    obtain ⟨ssq, hssq, hssqr⟩ := fe_pow_rep hp2 2 (by omega) hsr
    obtain ⟨t, ht, htr⟩ := fe_sub_rep hp0 hssqr hxr₁
    obtain ⟨x3, hx3, hx3r⟩ := fe_sub_rep hp0 htr hxr₂
    have haddX : (Wc p za zb).slope zx₁ zx₂ zy₁ zy₂ ^ 2 - zx₁ - zx₂ =
        (Wc p za zb).addX zx₁ zx₂ ((Wc p za zb).slope zx₁ zx₂ zy₁ zy₂) := by
      simp only [WeierstrassCurve.Affine.addX, Wc]
      ring
    rw [haddX] at hx3r
    obtain ⟨u, hu, hur⟩ := fe_sub_rep hp0 hxr₁ hx3r
    obtain ⟨v, hv, hvr⟩ := fe_mul_rep hp0 hsr hur
    obtain ⟨y3, hy3, hy3r⟩ := fe_sub_rep hp0 hvr hyr₁
    have haddY : (Wc p za zb).slope zx₁ zx₂ zy₁ zy₂ *
          (zx₁ - (Wc p za zb).addX zx₁ zx₂ ((Wc p za zb).slope zx₁ zx₂ zy₁ zy₂)) - zy₁ =
        (Wc p za zb).addY zx₁ zx₂ zy₁ ((Wc p za zb).slope zx₁ zx₂ zy₁ zy₂) := by
      simp only [WeierstrassCurve.Affine.addY, WeierstrassCurve.Affine.negAddY,
        WeierstrassCurve.Affine.negY, WeierstrassCurve.Affine.addX, Wc]
      ring
    rw [haddY] at hy3r
    have hxy : zx₁ = zx₂ → zy₁ ≠ (Wc p za zb).negY zx₂ zy₂ := fun h => absurd h hxx
    have hns₃ := nonsingular_add hns₁ hns₂ hxy
    have hcon := point_construct_rep hp5 hx3r hy3r ha₁ hb₁ hns₃.1
    norm_num at hssq
    refine ⟨⟨some x3, some y3, pa₁, pb₁⟩, ?_, ha₁, hb₁,
      Or.inr ⟨x3, y3, _, _, hns₃, rfl, rfl, hx3r, hy3r, add_of_imp hxy⟩⟩
    simp [Point.add, optEq, hga, hgb, hex, hdy, hdx, hs, hssq, ht, hx3, hu, hv,
      hy3, hcon, bind_ok, pure_eq_ok]

lemma feRep_unique {p : ℕ} {a b : FieldElement} {z : ZMod p}
    (ha : feRep p a z) (hb : feRep p b z) : a = b := by
  have hnum : a.num = b.num := (feRep_inj ha hb).mpr rfl
  have hpr : a.prime = b.prime := by rw [ha.1.1, hb.1.1]
  obtain ⟨n₁, p₁⟩ := a
  obtain ⟨n₂, p₂⟩ := b
  simp only at hnum hpr
  rw [hnum, hpr]

open WeierstrassCurve.Affine WeierstrassCurve.Affine.Point in
lemma pointRep_inj {p : ℕ} {za zb : ZMod p} {pt₁ pt₂ : Point}
    {Q : (Wc p za zb).Point} (h₁ : pointRep p za zb pt₁ Q)
    (h₂ : pointRep p za zb pt₂ Q) : pt₁ = pt₂ := by
  obtain ⟨ha₁, hb₁, hc₁⟩ := h₁
  obtain ⟨ha₂, hb₂, hc₂⟩ := h₂
  obtain ⟨px₁, py₁, pa₁, pb₁⟩ := pt₁
  obtain ⟨px₂, py₂, pa₂, pb₂⟩ := pt₂
  simp only at ha₁ hb₁ hc₁ ha₂ hb₂ hc₂
  have hA : pa₁ = pa₂ := feRep_unique ha₁ ha₂
  have hB : pb₁ = pb₂ := feRep_unique hb₁ hb₂
  subst hA
  subst hB
  rcases hc₁ with ⟨hx₁, hy₁, hQ₁⟩ | ⟨xv₁, yv₁, zx₁, zy₁, hns₁, hx₁, hy₁, hxr₁, hyr₁, hQ₁⟩ <;>
    rcases hc₂ with ⟨hx₂, hy₂, hQ₂⟩ | ⟨xv₂, yv₂, zx₂, zy₂, hns₂, hx₂, hy₂, hxr₂, hyr₂, hQ₂⟩
  · rw [hx₁, hy₁, hx₂, hy₂]
  · rw [hQ₁] at hQ₂
    exact absurd hQ₂.symm (some_ne_zero hns₂)
  · rw [hQ₁] at hQ₂
    exact absurd hQ₂ (some_ne_zero hns₁)
  · rw [hQ₁] at hQ₂
    injection hQ₂ with hzx hzy
    subst hzx
    subst hzy
    have hxeq : xv₁ = xv₂ := feRep_unique hxr₁ hxr₂
    have hyeq : yv₁ = yv₂ := feRep_unique hyr₁ hyr₂
    rw [hx₁, hy₁, hx₂, hy₂, hxeq, hyeq]

lemma daa_step_odd {M : Type} [AddCommMonoid M] (R C : M) (c : ℕ) (h : c % 2 = 1) :
    R + C + (c / 2) • (C + C) = R + c • C := by
  rw [show C + C = 2 • C from (two_nsmul C).symm, smul_smul,
    show c / 2 * 2 = c - 1 from by omega, add_assoc, ← succ_nsmul',
    show c - 1 + 1 = c from by omega]

lemma daa_step_even {M : Type} [AddCommMonoid M] (R C : M) (c : ℕ) (h : c % 2 = 0) :
    R + (c / 2) • (C + C) = R + c • C := by
  rw [show C + C = 2 • C from (two_nsmul C).symm, smul_smul,
    show c / 2 * 2 = c from by omega]

open WeierstrassCurve.Affine in
lemma rmulAux_rep {p : ℕ} [Fact p.Prime] (hp5 : 5 ≤ p) {za zb : ZMod p} :
    ∀ fuel coef, coef ≤ fuel → ∀ {cur res : Point} {C R : (Wc p za zb).Point},
      pointRep p za zb cur C → pointRep p za zb res R →
      ∃ s, Point.rmulAux fuel coef (some cur) (some res) = .ok (some s) ∧
        pointRep p za zb s (R + coef • C) := by
  intro fuel
  induction fuel with
  | zero =>
    intro coef hle cur res C R hc hr
    obtain rfl : coef = 0 := by omega
    exact ⟨res, rfl, by rw [zero_nsmul, add_zero]; exact hr⟩
  | succ fuel ih =>
    intro coef hle cur res C R hc hr
    cases coef with
    | zero => exact ⟨res, rfl, by rw [zero_nsmul, add_zero]; exact hr⟩
    | succ c =>
      obtain ⟨c1, hc1, hc1rep⟩ := point_add_rep hp5 hc hc
      by_cases hodd : (c + 1) % 2 = 1
      · obtain ⟨r1, hr1, hr1rep⟩ := point_add_rep hp5 hr hc
        obtain ⟨sfin, hsfin, hsrep⟩ := ih ((c + 1) / 2) (by omega) hc1rep hr1rep
        refine ⟨sfin, ?_, ?_⟩
        · simp [Point.rmulAux, hodd, Point.addOpt, hr1, hc1, hsfin, bind_ok]
        · rw [show R + (c + 1) • C = R + C + ((c + 1) / 2) • (C + C) from
            (daa_step_odd R C (c + 1) hodd).symm]
          exact hsrep
      · obtain ⟨sfin, hsfin, hsrep⟩ := ih ((c + 1) / 2) (by omega) hc1rep hr
        refine ⟨sfin, ?_, ?_⟩
        · simp [Point.rmulAux, hodd, Point.addOpt, hc1, hsfin, bind_ok, pure_eq_ok]
        · rw [show R + (c + 1) • C = R + ((c + 1) / 2) • (C + C) from
            (daa_step_even R C (c + 1) (by omega)).symm]
          exact hsrep

open WeierstrassCurve.Affine in
lemma naive_rep {p : ℕ} [Fact p.Prime] (hp5 : 5 ≤ p) {za zb : ZMod p}
    {pt : Point} {Q : (Wc p za zb).Point} (hpt : pointRep p za zb pt Q) :
    ∀ n, ∃ s, Point.naiveScalarMul n pt = .ok (some s) ∧
      pointRep p za zb s (n • Q) := by
  intro n
  induction n with
  | zero =>
    refine ⟨⟨none, none, pt.a, pt.b⟩, rfl, hpt.1, hpt.2.1, Or.inl ⟨rfl, rfl, ?_⟩⟩
    rw [zero_nsmul]
  | succ n ih =>
    obtain ⟨r, hr, hrrep⟩ := ih
    obtain ⟨s, hs, hsrep⟩ := point_add_rep hp5 hrrep hpt
    refine ⟨s, ?_, ?_⟩
    · simp [Point.naiveScalarMul, hr, bind_ok, Point.addOpt, hs]
    · rw [succ_nsmul]
      exact hsrep

lemma add_affine_id (xv yv a b : FieldElement) :
    Point.add ⟨some xv, some yv, a, b⟩ ⟨none, none, a, b⟩ =
      .ok (some ⟨some xv, some yv, a, b⟩) := by
  simp [Point.add, eq_self]

lemma add_id_any (q : Point) (a b : FieldElement)
    (hga : FieldElement.eq a q.a = true) (hgb : FieldElement.eq b q.b = true) :
    Point.add ⟨none, none, a, b⟩ q = .ok (some q) := by
  simp [Point.add, hga, hgb]

lemma rmulAux_id_current (xv yv a b : FieldElement) (hy : yv.num = 0)
    (hp : 0 < xv.prime) :
    ∀ fuel coef r, coef ≤ fuel →
      (r = Point.mk (some xv) (some yv) a b ∨ r = Point.mk none none a b) →
      Point.rmulAux fuel coef (some ⟨none, none, a, b⟩) (some r) = .ok (some r) := by
  intro fuel
  induction fuel with
  | zero =>
    intro coef r hle hr
    obtain rfl : coef = 0 := by omega
    rfl
  | succ fuel ih =>
    intro coef r hle hr
    cases coef with
    | zero => rfl
    | succ c =>
      have hres : Point.addOpt (some r) (some ⟨none, none, a, b⟩) = .ok (some r) := by
        rcases hr with rfl | rfl
        · simp [Point.addOpt, add_affine_id]
        · simp [Point.addOpt, add_id_any ⟨none, none, a, b⟩ a b (eq_self a) (eq_self b)]
      have hcur : Point.addOpt (some (⟨none, none, a, b⟩ : Point))
          (some ⟨none, none, a, b⟩) = .ok (some ⟨none, none, a, b⟩) := by
        simp [Point.addOpt, add_id_any ⟨none, none, a, b⟩ a b (eq_self a) (eq_self b)]
      by_cases hodd : (c + 1) % 2 = 1
      · simp [Point.rmulAux, hodd, hres, hcur, bind_ok,
          ih ((c + 1) / 2) r (by omega) hr]
      · simp [Point.rmulAux, hodd, hcur, bind_ok, pure_eq_ok,
          ih ((c + 1) / 2) r (by omega) hr]

lemma rmul_order_two (xv yv a b : FieldElement) (hy : yv.num = 0)
    (hp : 0 < xv.prime) (n : ℕ) :
    Point.rmul n ⟨some xv, some yv, a, b⟩ =
      .ok (some (if n % 2 = 1 then ⟨some xv, some yv, a, b⟩
        else ⟨none, none, a, b⟩)) := by
  cases n with
  | zero => simp [Point.rmul, Point.rmulAux]
  | succ m =>
    have hres : Point.addOpt (some (⟨none, none, a, b⟩ : Point))
        (some ⟨some xv, some yv, a, b⟩) = .ok (some ⟨some xv, some yv, a, b⟩) := by
      simp [Point.addOpt, add_id_any ⟨some xv, some yv, a, b⟩ a b (eq_self a) (eq_self b)]
    have hcur : Point.addOpt (some (⟨some xv, some yv, a, b⟩ : Point))
        (some ⟨some xv, some yv, a, b⟩) = .ok (some ⟨none, none, a, b⟩) := by
      simp [Point.addOpt, add_order_two xv yv a b hy hp]
    show Point.rmulAux (m + 1) (m + 1) _ _ = _
    by_cases hodd : (m + 1) % 2 = 1
    · simp [Point.rmulAux, hodd, hres, hcur, bind_ok,
        rmulAux_id_current xv yv a b hy hp m ((m + 1) / 2) _ (by omega) (Or.inl rfl)]
    · simp [Point.rmulAux, hodd, hres, hcur, bind_ok, pure_eq_ok,
        rmulAux_id_current xv yv a b hy hp m ((m + 1) / 2) _ (by omega) (Or.inr rfl)]

lemma naive_order_two (xv yv a b : FieldElement) (hy : yv.num = 0)
    (hp : 0 < xv.prime) (n : ℕ) :
    Point.naiveScalarMul n ⟨some xv, some yv, a, b⟩ =
      .ok (some (if n % 2 = 1 then ⟨some xv, some yv, a, b⟩
        else ⟨none, none, a, b⟩)) := by
  induction n with
  | zero => simp [Point.naiveScalarMul]
  | succ n ih =>
    by_cases he : n % 2 = 1
    · have h2 : (n + 1) % 2 = 0 := by omega
      simp [Point.naiveScalarMul, ih, he, h2, bind_ok, Point.addOpt,
        add_order_two xv yv a b hy hp]
    · have he' : ¬ (n % 2 = 1) := he
      have h1 : (n + 1) % 2 = 1 := by omega
      simp [Point.naiveScalarMul, ih, he', h1, bind_ok, Point.addOpt,
        add_id_any ⟨some xv, some yv, a, b⟩ a b (eq_self a) (eq_self b)]


lemma feRep_ne_zero {p : ℕ} {a : FieldElement} {z : ZMod p}
    (ha : feRep p a z) (h : a.num ≠ 0) : z ≠ 0 := by
  intro h0
  apply h
  obtain ⟨⟨hpa, hn0, hn1⟩, hc⟩ := ha
  have hdvd : ((p : ℕ) : Int) ∣ a.num :=
    (ZMod.intCast_zmod_eq_zero_iff_dvd _ _).mp (by rw [hc, h0])
  exact Int.eq_zero_of_abs_lt_dvd hdvd (by rw [abs_of_nonneg hn0]; exact hn1)

open WeierstrassCurve.Affine in
/-- C4 amended: over a prime field with `p ≥ 5`, for every valid point `P`
and every `n` in `[0, 20]`, the double-and-add `scalarMultiply(n, P)` agrees
with naive repeated addition of `P` to the identity (in particular `n = 0`
yields the identity). The restriction to `p ≥ 5` is forced: over `F_2` the
unconditional `current += current` step divides by `2*y = 0` (the
counterexample theorem), and over `F_3` the exponent reduction
`n = e % (p - 1)` turns `x**2` into `x^0 = 1`, so doubling a point such as
`(1, 1)` on `y^2 = x^3` fails the rebuilt curve check that naive addition
never performs. For `p ≥ 5` the proof identifies the code's arithmetic with
the group law on the Mathlib Weierstrass curve `y^2 = x^3 + a*x + b` (points
with `y ≠ 0` are nonsingular in odd characteristic; order-2 points, which
may be singular, are handled directly), where both algorithms compute
`n • P`. The bound `n ≤ 20` is the claim's; the proof does not need it. -/
theorem c4_amended_daa_eq_naive (p : ℕ) (hp : p.Prime) (hp5 : 5 ≤ p)
    (pt : Point) (hv : pt.validFor p) (n : ℕ) (hn : n ≤ 20) :
    Point.rmul n pt = Point.naiveScalarMul n pt := by
  haveI : Fact p.Prime := ⟨hp⟩
  obtain ⟨px, py, pa, pb⟩ := pt
  obtain ⟨ha, hb, hcase⟩ := hv
  simp only at ha hb hcase
  have harep : feRep p pa ((pa.num : ZMod p)) := ⟨ha, rfl⟩
  have hbrep : feRep p pb ((pb.num : ZMod p)) := ⟨hb, rfl⟩
  rcases hcase with ⟨hx, hy⟩ | ⟨xv, yv, hx, hy, hxf, hyf, hoc⟩
  · subst hx
    subst hy
    have hptrep : pointRep p (pa.num : ZMod p) (pb.num : ZMod p)
        ⟨none, none, pa, pb⟩ (0 : (Wc p (pa.num : ZMod p) (pb.num : ZMod p)).Point) :=
      ⟨harep, hbrep, Or.inl ⟨rfl, rfl, rfl⟩⟩
    obtain ⟨s₁, h₁, hrep₁⟩ := rmulAux_rep hp5 n n le_rfl hptrep hptrep
    obtain ⟨s₂, h₂, hrep₂⟩ := naive_rep hp5 hptrep n
    have hseq : s₁ = s₂ := pointRep_inj (by rwa [zero_add] at hrep₁) hrep₂
    show Point.rmulAux n n _ _ = _
    rw [h₁, h₂, hseq]
  · subst hx
    subst hy
    by_cases hy0 : yv.num = 0
    · have hp0x : 0 < xv.prime := by rw [hxf.1]; omega
      rw [rmul_order_two xv yv pa pb hy0 hp0x n, naive_order_two xv yv pa pb hy0 hp0x n]
    · have hxrep : feRep p xv ((xv.num : ZMod p)) := ⟨hxf, rfl⟩
      have hyrep : feRep p yv ((yv.num : ZMod p)) := ⟨hyf, rfl⟩
      have hzy0 : ((yv.num : Int) : ZMod p) ≠ 0 := feRep_ne_zero hyrep hy0
      obtain ⟨r, hocr, hiff⟩ := onCurve_rep hp5 hxrep hyrep harep hbrep
      have heq : (Wc p (pa.num : ZMod p) (pb.num : ZMod p)).Equation
          ((xv.num : ZMod p)) ((yv.num : ZMod p)) := by
        apply hiff.mp
        rw [hocr] at hoc
        exact Except.ok.inj hoc
      have hns := Wc_nonsingular_of_y_ne hp5 heq hzy0
      have hptrep : pointRep p (pa.num : ZMod p) (pb.num : ZMod p)
          ⟨some xv, some yv, pa, pb⟩ (.some hns) :=
        ⟨harep, hbrep, Or.inr ⟨xv, yv, _, _, hns, rfl, rfl, hxrep, hyrep, rfl⟩⟩
      have hidrep : pointRep p (pa.num : ZMod p) (pb.num : ZMod p)
          ⟨none, none, pa, pb⟩ 0 :=
        ⟨harep, hbrep, Or.inl ⟨rfl, rfl, rfl⟩⟩
      obtain ⟨s₁, h₁, hrep₁⟩ := rmulAux_rep hp5 n n le_rfl hptrep hidrep
      obtain ⟨s₂, h₂, hrep₂⟩ := naive_rep hp5 hptrep n
      have hseq : s₁ = s₂ := pointRep_inj (by rwa [zero_add] at hrep₁) hrep₂
      show Point.rmulAux n n _ _ = _
      rw [h₁, h₂, hseq]

set_option maxRecDepth 100000 in
/-- C4 amended, witness: fast and naive scalar multiplication agree at
`n = 7` on the point `(15, 86)` of `y^2 = x^3 + 7` over `F_223` (the spec's
order-7 subgroup generator). -/
theorem c4_amended_daa_eq_naive_witness :
    Point.rmul 7 ⟨some ⟨15, 223⟩, some ⟨86, 223⟩, ⟨0, 223⟩, ⟨7, 223⟩⟩ =
      Point.naiveScalarMul 7 ⟨some ⟨15, 223⟩, some ⟨86, 223⟩, ⟨0, 223⟩, ⟨7, 223⟩⟩ :=
  c4_amended_daa_eq_naive 223 (by norm_num) (by norm_num) _
    ⟨⟨by norm_num, by norm_num, by norm_num⟩, ⟨by norm_num, by norm_num, by norm_num⟩,
      Or.inr ⟨⟨15, 223⟩, ⟨86, 223⟩, rfl, rfl,
        ⟨by norm_num, by norm_num, by norm_num⟩,
        ⟨by norm_num, by norm_num, by norm_num⟩, by decide⟩⟩ 7 (by norm_num)

end ProgBitcoin
